import Mathlib

/-!
Verification of `remove_links.py`: a one-shot utility that walks a directory
tree, and in every file named `CHANGELOG.md` rewrites headings of the form
`## [label](url) (paren)` to `## label (paren)` via the Python regex
substitution `re.sub(r'## \[([^\]]+)\]\([^)]+\) (\([^)]+\))', r'## \1 \2', content)`,
writing the file back only when the content changed.

Text is modelled as `List Char`.  The regex here is deterministic: each
greedy character class `[^x]+` is followed by the literal `x`, so the
maximal run is the only possible match and `re.sub`'s leftmost,
non-overlapping scan is faithfully captured by a left-to-right scan that,
at each position, either consumes a whole match or moves one character on.
-/

/-- The literal `## [` that opens the pattern. -/
def pat1 : List Char := ['#', '#', ' ', '[']

/-- The literal `](` between the label and the URL. -/
def pat2 : List Char := [']', '(']

/-- The literal `) (` between the URL and the parenthetical body. -/
def pat3 : List Char := [')', ' ', '(']

/-- The literal `)` closing the parenthetical. -/
def pat4 : List Char := [')']

/-- Strip a literal pattern from the front of a string, or fail. -/
def stripPfx : List Char → List Char → Option (List Char)
  | [], s => some s
  | _ :: _, [] => none
  | p :: ps, c :: cs => if c = p then stripPfx ps cs else none

/-- Longest run of characters different from `stop`, with the remainder. -/
def spanNe (stop : Char) : List Char → List Char × List Char
  | [] => ([], [])
  | c :: cs =>
    if c = stop then ([], c :: cs)
    else
      let t := spanNe stop cs
      (c :: t.1, t.2)

/-- `[^stop]+`: one or more characters different from `stop` (greedy). -/
def span1 (stop : Char) (s : List Char) : Option (List Char × List Char) :=
  if (spanNe stop s).1 = [] then none else some (spanNe stop s)

/-- Try to match the regex `## \[([^\]]+)\]\([^)]+\) (\([^)]+\))` at the
start of `s`; on success return the label capture, the body of the
parenthetical capture (without its parentheses) and the rest of the input
after the match. -/
def tryMatch (s : List Char) : Option (List Char × List Char × List Char) :=
  (stripPfx pat1 s).bind fun s1 =>
  (span1 ']' s1).bind fun lp =>
  (stripPfx pat2 lp.2).bind fun s3 =>
  (span1 ')' s3).bind fun up =>
  (stripPfx pat3 up.2).bind fun s5 =>
  (span1 ')' s5).bind fun pp =>
  (stripPfx pat4 pp.2).map fun s7 => (lp.1, pp.1, s7)

/-- The replacement `## \1 \2` (the group `\2` carries its parentheses). -/
def repl (label paren : List Char) : List Char :=
  ['#', '#', ' '] ++ label ++ [' ', '('] ++ paren ++ [')']

/-- The text of one full match: `## [label](url) (paren)`. -/
def linked (label url paren : List Char) : List Char :=
  pat1 ++ label ++ pat2 ++ url ++ pat3 ++ paren ++ pat4

/-- The text a match is rewritten to: `## label (paren)`. -/
def unlinked (label paren : List Char) : List Char :=
  repl label paren

/-- Fuelled left-to-right substitution scan (fuel bounds the recursion;
`s.length` is always enough). -/
def subAllF : Nat → List Char → List Char
  | 0, s => s
  | _ + 1, [] => []
  | fuel + 1, c :: cs =>
    match tryMatch (c :: cs) with
    | some (l, p, r) => repl l p ++ subAllF fuel r
    | none => c :: subAllF fuel cs

/-- `re.sub(pattern, replacement, s)`: replace every non-overlapping match,
scanning left to right. -/
def subAll (s : List Char) : List Char := subAllF s.length s

/-- Whether the pattern matches anywhere in `s`. -/
def hasMatch : List Char → Bool
  | [] => false
  | c :: cs => (tryMatch (c :: cs)).isSome || hasMatch cs

/-- No match starts at any position lying inside `pre` when the full text
is `pre ++ tail`. -/
def cleanBefore : List Char → List Char → Bool
  | [], _ => true
  | c :: p, tail => !(tryMatch (c :: (p ++ tail))).isSome && cleanBefore p tail

-- ### Basic lemmas about the matching primitives

theorem stripPfx_same (p s : List Char) : stripPfx p (p ++ s) = some s := by
  induction p with
  | nil => rfl
  | cons c cs ih => simp [stripPfx, ih]

theorem stripPfx_some {p s r : List Char} (h : stripPfx p s = some r) :
    s = p ++ r := by
  induction p generalizing s with
  | nil => simpa [stripPfx] using h
  | cons c cs ih =>
    cases s with
    | nil => simp [stripPfx] at h
    | cons d ds =>
      by_cases hd : d = c
      · subst hd
        simp only [stripPfx, if_pos rfl] at h
        simpa using ih h
      · simp [stripPfx, hd] at h

theorem spanNe_append (stop : Char) (s : List Char) :
    (spanNe stop s).1 ++ (spanNe stop s).2 = s := by
  induction s with
  | nil => rfl
  | cons c cs ih =>
    by_cases hc : c = stop
    · simp [spanNe, hc]
    · simp [spanNe, hc, ih]

theorem spanNe_mem (stop : Char) (s : List Char) :
    ∀ c ∈ (spanNe stop s).1, c ≠ stop := by
  induction s with
  | nil => simp [spanNe]
  | cons c cs ih =>
    by_cases hc : c = stop
    · simp [spanNe, hc]
    · simp only [spanNe, if_neg hc]
      intro d hd
      rcases List.mem_cons.mp hd with h | h
      · subst h; exact hc
      · exact ih d h

theorem spanNe_all {stop : Char} {t : List Char} (r : List Char)
    (ht : ∀ c ∈ t, c ≠ stop) :
    spanNe stop (t ++ stop :: r) = (t, stop :: r) := by
  induction t with
  | nil => simp [spanNe]
  | cons c cs ih =>
    have hc : c ≠ stop := ht c (List.mem_cons_self c cs)
    have ih' := ih fun d hd => ht d (List.mem_cons_of_mem c hd)
    simp [spanNe, hc, ih']

theorem span1_exact {stop : Char} {t : List Char} (r : List Char)
    (hne : t ≠ []) (ht : ∀ c ∈ t, c ≠ stop) :
    span1 stop (t ++ stop :: r) = some (t, stop :: r) := by
  simp [span1, spanNe_all r ht, hne]

theorem span1_some {stop : Char} {s : List Char}
    {tr : List Char × List Char} (h : span1 stop s = some tr) :
    s = tr.1 ++ tr.2 ∧ tr.1 ≠ [] ∧ ∀ c ∈ tr.1, c ≠ stop := by
  unfold span1 at h
  split at h
  · exact absurd h (by simp)
  · rename_i hne
    cases h
    exact ⟨(spanNe_append stop s).symm, hne, spanNe_mem stop s⟩

-- ### Characterisation of a successful match

theorem tryMatch_linked (l u p r : List Char)
    (hl : l ≠ []) (hl2 : ∀ c ∈ l, c ≠ ']')
    (hu : u ≠ []) (hu2 : ∀ c ∈ u, c ≠ ')')
    (hp : p ≠ []) (hp2 : ∀ c ∈ p, c ≠ ')') :
    tryMatch (linked l u p ++ r) = some (l, p, r) := by
  have e : linked l u p ++ r =
      pat1 ++ (l ++ (']' :: '(' ::
        (u ++ (')' :: ' ' :: '(' :: (p ++ ')' :: r))))) := by
    simp [linked, pat1, pat2, pat3, pat4]
  rw [e]
  unfold tryMatch
  rw [stripPfx_same]
  simp only [Option.some_bind]
  rw [span1_exact _ hl hl2]
  simp only [Option.some_bind]
  rw [show (']' :: '(' :: (u ++ (')' :: ' ' :: '(' :: (p ++ ')' :: r))))
      = pat2 ++ (u ++ (')' :: ' ' :: '(' :: (p ++ ')' :: r))) from rfl]
  rw [stripPfx_same]
  simp only [Option.some_bind]
  rw [span1_exact _ hu hu2]
  simp only [Option.some_bind]
  rw [show (')' :: ' ' :: '(' :: (p ++ ')' :: r))
      = pat3 ++ (p ++ ')' :: r) from rfl]
  rw [stripPfx_same]
  simp only [Option.some_bind]
  rw [span1_exact _ hp hp2]
  simp only [Option.some_bind]
  rw [show (')' :: r) = pat4 ++ r from rfl]
  rw [stripPfx_same]
  rfl

theorem tryMatch_some {s l p r : List Char}
    (h : tryMatch s = some (l, p, r)) :
    ∃ u, s = linked l u p ++ r ∧
      l ≠ [] ∧ (∀ c ∈ l, c ≠ ']') ∧
      u ≠ [] ∧ (∀ c ∈ u, c ≠ ')') ∧
      p ≠ [] ∧ (∀ c ∈ p, c ≠ ')') := by
  unfold tryMatch at h
  cases h1 : stripPfx pat1 s with
  | none => rw [h1] at h; simp at h
  | some s1 =>
  rw [h1] at h; simp only [Option.some_bind] at h
  cases h2 : span1 ']' s1 with
  | none => rw [h2] at h; simp at h
  | some lp =>
  rw [h2] at h; simp only [Option.some_bind] at h
  cases h3 : stripPfx pat2 lp.2 with
  | none => rw [h3] at h; simp at h
  | some s3 =>
  rw [h3] at h; simp only [Option.some_bind] at h
  cases h4 : span1 ')' s3 with
  | none => rw [h4] at h; simp at h
  | some up =>
  rw [h4] at h; simp only [Option.some_bind] at h
  cases h5 : stripPfx pat3 up.2 with
  | none => rw [h5] at h; simp at h
  | some s5 =>
  rw [h5] at h; simp only [Option.some_bind] at h
  cases h6 : span1 ')' s5 with
  | none => rw [h6] at h; simp at h
  | some pp =>
  rw [h6] at h; simp only [Option.some_bind] at h
  cases h7 : stripPfx pat4 pp.2 with
  | none => rw [h7] at h; simp at h
  | some s7 =>
  rw [h7] at h; simp only [Option.map_some'] at h
  simp only [Option.some.injEq, Prod.mk.injEq] at h
  obtain ⟨el, ep, er⟩ := h
  obtain ⟨e2, hlp1, hlmem⟩ := span1_some h2
  obtain ⟨e4, hup1, humem⟩ := span1_some h4
  obtain ⟨e6, hpp1, hpmem⟩ := span1_some h6
  refine ⟨up.1, ?_, ?_, ?_, hup1, humem, ?_, ?_⟩
  · have := stripPfx_some h1
    rw [this, e2, stripPfx_some h3, e4, stripPfx_some h5, e6,
      stripPfx_some h7, el, ep, er]
    simp [linked]
  · rw [← el]; exact hlp1
  · rw [← el]; exact hlmem
  · rw [← ep]; exact hpp1
  · rw [← ep]; exact hpmem

theorem repl_lt_linked (l u p : List Char) (hu : u ≠ []) :
    (repl l p).length < (linked l u p).length := by
  have : 0 < u.length := List.length_pos.mpr hu
  simp [repl, linked, pat1, pat2, pat3, pat4]
  omega

theorem repl_le_linked (l u p : List Char) :
    (repl l p).length ≤ (linked l u p).length := by
  simp [repl, linked, pat1, pat2, pat3, pat4]
  omega

theorem tryMatch_len {s l p r : List Char}
    (h : tryMatch s = some (l, p, r)) : r.length < s.length := by
  obtain ⟨u, hs, hl, -, hu, -, hp, -⟩ := tryMatch_some h
  have : 0 < l.length := List.length_pos.mpr hl
  rw [hs]
  simp [linked, pat1, pat2, pat3, pat4]
  omega

-- ### The substitution scan: fuel stability and unfolding lemmas

theorem subAllF_stable :
    ∀ f : Nat, ∀ s : List Char, s.length ≤ f → subAllF f s = subAll s := by
  intro f
  induction f using Nat.strong_induction_on with
  | _ f IH =>
    intro s hf
    cases s with
    | nil => cases f <;> rfl
    | cons c cs =>
      cases f with
      | zero => simp at hf
      | succ f' =>
        have hcs : cs.length ≤ f' := by simpa using hf
        show subAllF (f' + 1) (c :: cs) = subAllF (cs.length + 1) (c :: cs)
        cases h : tryMatch (c :: cs) with
        | none =>
          simp only [subAllF, h]
          rw [IH f' (by omega) cs hcs]
          rfl
        | some x =>
          obtain ⟨l, p, r⟩ := x
          have hr : r.length ≤ cs.length := by
            have := tryMatch_len h
            simpa using Nat.lt_succ_iff.mp (by simpa using this)
          simp only [subAllF, h]
          rw [IH f' (by omega) r (le_trans hr hcs),
            IH cs.length (by omega) r hr]

theorem subAll_matched {c : Char} {cs l p r : List Char}
    (h : tryMatch (c :: cs) = some (l, p, r)) :
    subAll (c :: cs) = repl l p ++ subAll r := by
  have hr : r.length ≤ cs.length := by
    have := tryMatch_len h
    simp only [List.length_cons] at this
    omega
  show subAllF (cs.length + 1) (c :: cs) = _
  simp only [subAllF, h]
  rw [subAllF_stable cs.length r hr]

theorem subAll_unmatched {c : Char} {cs : List Char}
    (h : tryMatch (c :: cs) = none) :
    subAll (c :: cs) = c :: subAll cs := by
  show subAllF (cs.length + 1) (c :: cs) = _
  simp only [subAllF, h]
  rfl

theorem subAll_nil : subAll [] = [] := rfl

theorem subAll_noMatch : ∀ {s : List Char}, hasMatch s = false → subAll s = s := by
  intro s
  induction s with
  | nil => intro _; rfl
  | cons c cs ih =>
    intro h
    simp only [hasMatch, Bool.or_eq_false_iff] at h
    obtain ⟨h1, h2⟩ := h
    have hn : tryMatch (c :: cs) = none := Option.not_isSome_iff_eq_none.mp (by simp [h1])
    rw [subAll_unmatched hn, ih h2]

theorem subAll_length_le : ∀ s : List Char, (subAll s).length ≤ s.length := by
  suffices H : ∀ n : Nat, ∀ s : List Char, s.length ≤ n →
      (subAll s).length ≤ s.length by
    exact fun s => H s.length s le_rfl
  intro n
  induction n with
  | zero =>
    intro s hs
    have : s = [] := List.length_eq_zero.mp (Nat.le_zero.mp hs)
    simp [this, subAll_nil]
  | succ n IH =>
    intro s hs
    cases s with
    | nil => simp [subAll_nil]
    | cons c cs =>
      have hcs : cs.length ≤ n := by simpa using hs
      cases h : tryMatch (c :: cs) with
      | none =>
        rw [subAll_unmatched h]
        have := IH cs hcs
        simp only [List.length_cons]
        omega
      | some x =>
        obtain ⟨l, p, r⟩ := x
        obtain ⟨u, hsx, -, -, -, -, -, -⟩ := tryMatch_some h
        have hr := tryMatch_len h
        simp only [List.length_cons] at hr
        have h1 := IH r (by omega)
        rw [subAll_matched h, hsx]
        have h2 := repl_le_linked l u p
        simp only [List.length_append]
        omega

theorem subAll_length_lt :
    ∀ {s : List Char}, hasMatch s = true → (subAll s).length < s.length := by
  suffices H : ∀ n : Nat, ∀ s : List Char, s.length ≤ n →
      hasMatch s = true → (subAll s).length < s.length by
    exact fun {s} => H s.length s le_rfl
  intro n
  induction n with
  | zero =>
    intro s hs hm
    have : s = [] := List.length_eq_zero.mp (Nat.le_zero.mp hs)
    subst this
    simp [hasMatch] at hm
  | succ n IH =>
    intro s hs hm
    cases s with
    | nil => simp [hasMatch] at hm
    | cons c cs =>
      have hcs : cs.length ≤ n := by simpa using hs
      cases h : tryMatch (c :: cs) with
      | none =>
        have hm' : hasMatch cs = true := by
          simpa [hasMatch, h] using hm
        rw [subAll_unmatched h]
        have := IH cs hcs hm'
        simp only [List.length_cons]
        omega
      | some x =>
        obtain ⟨l, p, r⟩ := x
        obtain ⟨u, hsx, -, -, hu, -, -, -⟩ := tryMatch_some h
        have h1 := subAll_length_le r
        rw [subAll_matched h, hsx]
        have h2 := repl_lt_linked l u p hu
        simp only [List.length_append]
        omega

theorem subAll_ne_iff (s : List Char) : subAll s ≠ s ↔ hasMatch s = true := by
  constructor
  · intro h
    by_contra hb
    exact h (subAll_noMatch (by simpa using hb))
  · intro h he
    have := subAll_length_lt h
    rw [he] at this
    omega

theorem cleanBefore_subAll :
    ∀ {pre tail : List Char}, cleanBefore pre tail = true →
      subAll (pre ++ tail) = pre ++ subAll tail := by
  intro pre
  induction pre with
  | nil => intro tail _; simp
  | cons c p ih =>
    intro tail h
    simp only [cleanBefore, Bool.and_eq_true, Bool.not_eq_true'] at h
    obtain ⟨h1, h2⟩ := h
    have hn : tryMatch (c :: (p ++ tail)) = none :=
      Option.not_isSome_iff_eq_none.mp (by simp [h1])
    have : (c :: p) ++ tail = c :: (p ++ tail) := rfl
    rw [this, subAll_unmatched hn, ih h2]
    rfl

-- ### Per-file processing (read, transform, compare, conditional write),
-- mirroring the `try`/`except` body of `remove_changelog_links`.

/-- Per-file outcome reported on stdout. -/
inductive Status where
  | removed
  | noChange
  | errored
deriving DecidableEq

/-- One discovered file together with the behaviour of the file system for
it during this run: its base name, its joined path, its content on disk,
and whether the read (resp. a write attempt) raises an error. -/
structure FileEnv where
  name : List Char
  path : List Char
  diskContent : List Char
  readErr : Option (List Char)
  writeErr : Option (List Char)
deriving DecidableEq

/-- Result of processing one file: status line target path, whether the
file was written, the reported status, and the resulting on-disk content. -/
structure FileResult where
  path : List Char
  wrote : Bool
  status : Status
  disk : List Char
deriving DecidableEq

/-- `try: read; transform; if changed write; except: report error` for one
file.  A failure (read or write) leaves the file's content as it was. -/
def procOne (f : FileEnv) : FileResult :=
  match f.readErr with
  | some _ => ⟨f.path, false, Status.errored, f.diskContent⟩
  | none =>
    if subAll f.diskContent = f.diskContent then
      ⟨f.path, false, Status.noChange, f.diskContent⟩
    else
      match f.writeErr with
      | some _ => ⟨f.path, false, Status.errored, f.diskContent⟩
      | none => ⟨f.path, true, Status.removed, subAll f.diskContent⟩

/-- The whole run over the discovered files, in traversal order; every
file is processed, whatever happened to the previous ones. -/
def runAll (files : List FileEnv) : List FileResult := files.map procOne

/-- Status-line text of the three `print` calls in the source. -/
def removedMsg : List Char := "已移除链接: ".toList

def noChangeMsg : List Char := "无需修改: ".toList

def errMsgA : List Char := "处理文件 ".toList

def errMsgB : List Char := " 时出错: ".toList

/-- The one status line printed for a processed file. -/
def reportLine (f : FileEnv) : List Char :=
  match f.readErr with
  | some m => errMsgA ++ f.path ++ (errMsgB ++ m)
  | none =>
    if subAll f.diskContent = f.diskContent then noChangeMsg ++ f.path
    else
      match f.writeErr with
      | some m => errMsgA ++ f.path ++ (errMsgB ++ m)
      | none => removedMsg ++ f.path

-- ### Directory traversal (`os.walk('.')` and the name filter)

/-- The argument of `os.walk` in the source: the current directory. -/
def walkRoot : List Char := ['.']

/-- The exact file name selected for processing. -/
def changelogName : List Char := "CHANGELOG.md".toList

/-- The name filter `file == 'CHANGELOG.md'` (exact, case-sensitive). -/
def isChangelog (f : FileEnv) : Bool := f.name = changelogName

mutual
/-- A directory tree.  A directory carries a `listable` flag: `os.walk`
with its default `onerror=None` silently ignores a directory whose
listing fails and descends into none of its entries. -/
inductive FTree where
  | file (f : FileEnv) : FTree
  | dir (dname : List Char) (listable : Bool) (children : FForest) : FTree
inductive FForest where
  | fnil : FForest
  | fcons (t : FTree) (ts : FForest) : FForest
end

/-- Concatenation of sibling lists. -/
def fapp : FForest → FForest → FForest
  | FForest.fnil, b => b
  | FForest.fcons t ts, b => FForest.fcons t (fapp ts b)

mutual
/-- All files discovered by the walk (an unlistable directory yields
nothing from its whole subtree). -/
def walkEnvs : FTree → List FileEnv
  | FTree.file f => [f]
  | FTree.dir _ true cs => walkForest cs
  | FTree.dir _ false _ => []
def walkForest : FForest → List FileEnv
  | FForest.fnil => []
  | FForest.fcons t ts => walkEnvs t ++ walkForest ts
end

/-- The files the run actually reads or writes: the discovered files whose
name is exactly `CHANGELOG.md`. -/
def processedEnvs (t : FTree) : List FileEnv :=
  (walkEnvs t).filter isChangelog

mutual
/-- The status lines the run emits while traversing: one line per matching
file, nothing for directories (listable or not). -/
def runTree : FTree → List (List Char)
  | FTree.file f => if isChangelog f then [reportLine f] else []
  | FTree.dir _ true cs => runForest cs
  | FTree.dir _ false _ => []
def runForest : FForest → List (List Char)
  | FForest.fnil => []
  | FForest.fcons t ts => runTree t ++ runForest ts
end

theorem runForest_fapp :
    ∀ a b : FForest, runForest (fapp a b) = runForest a ++ runForest b
  | FForest.fnil, b => by simp [fapp, runForest]
  | FForest.fcons t ts, b => by
    simp [fapp, runForest, runForest_fapp ts b]

mutual
theorem runTree_eq :
    ∀ t : FTree, runTree t = ((walkEnvs t).filter isChangelog).map reportLine
  | FTree.file f => by
    cases hc : isChangelog f <;> simp [runTree, walkEnvs, hc, List.filter]
  | FTree.dir n true cs => by
    simpa [runTree, walkEnvs] using runForest_eq cs
  | FTree.dir n false cs => by
    simp [runTree, walkEnvs]
theorem runForest_eq :
    ∀ ts : FForest,
      runForest ts = ((walkForest ts).filter isChangelog).map reportLine
  | FForest.fnil => by simp [runForest, walkForest]
  | FForest.fcons t ts => by
    simp [runForest, walkForest, runTree_eq t, runForest_eq ts]
end

/-- Rewriting one whole match at the head of the text. -/
theorem subAll_linked (l u p r : List Char)
    (hl : l ≠ []) (hl2 : ∀ c ∈ l, c ≠ ']')
    (hu : u ≠ []) (hu2 : ∀ c ∈ u, c ≠ ')')
    (hp : p ≠ []) (hp2 : ∀ c ∈ p, c ≠ ')') :
    subAll (linked l u p ++ r) = unlinked l p ++ subAll r := by
  have hm := tryMatch_linked l u p r hl hl2 hu hu2 hp hp2
  have e : linked l u p ++ r =
      '#' :: '#' :: ' ' :: '[' ::
        (l ++ pat2 ++ u ++ pat3 ++ p ++ pat4 ++ r) := by
    simp [linked, pat1]
  rw [e] at hm ⊢
  exact subAll_matched hm

-- ### Claims

/-- C1: every occurrence of the pattern `## [label](url) (paren)` — label
one or more characters excluding `]`, url one or more characters excluding
`)`, paren one or more characters excluding `)` — is rewritten to
`## label (paren)` with label and paren copied verbatim, wherever it occurs
in the text (no anchoring to line starts): if no match starts inside the
characters preceding the occurrence, the occurrence itself is rewritten,
the preceding characters are kept, and the scan continues after it. -/
theorem c1_rewrites_every_occurrence
    (pre label url paren rest : List Char)
    (hpre : cleanBefore pre (linked label url paren ++ rest) = true)
    (hl : label ≠ []) (hl2 : ∀ c ∈ label, c ≠ ']')
    (hu : url ≠ []) (hu2 : ∀ c ∈ url, c ≠ ')')
    (hp : paren ≠ []) (hp2 : ∀ c ∈ paren, c ≠ ')') :
    subAll (pre ++ (linked label url paren ++ rest)) =
      pre ++ (unlinked label paren ++ subAll rest) := by
  rw [cleanBefore_subAll hpre,
    subAll_linked label url paren rest hl hl2 hu hu2 hp hp2]

/-- Witness for C1 at the spec's concrete heading, placed mid-line to show
the match is not anchored to a line start. -/
theorem c1_rewrites_every_occurrence_witness :
    subAll
      ("x ## [1.2.0](https://example.com/compare/v1.1.0...v1.2.0) (2024-01-15)\n".toList) =
      "x ## 1.2.0 (2024-01-15)\n".toList := by
  have h := c1_rewrites_every_occurrence "x ".toList "1.2.0".toList
    "https://example.com/compare/v1.1.0...v1.2.0".toList "2024-01-15".toList
    "\n".toList (by decide) (by decide) (by decide) (by decide) (by decide)
    (by decide) (by decide)
  have e1 :
      "x ## [1.2.0](https://example.com/compare/v1.1.0...v1.2.0) (2024-01-15)\n".toList =
        "x ".toList ++ (linked "1.2.0".toList
          "https://example.com/compare/v1.1.0...v1.2.0".toList
          "2024-01-15".toList ++ "\n".toList) := by decide
  have e2 : "x ".toList ++ (unlinked "1.2.0".toList "2024-01-15".toList ++
      subAll ("\n".toList)) = "x ## 1.2.0 (2024-01-15)\n".toList := by decide
  exact (congrArg subAll e1).trans (h.trans e2)

/-- C2: a processed file is written if and only if the transformed text
differs from the original (exact equality); when identical the disk
content is untouched and the status is the per-file "no change" one, when
different the transformed text replaces the content entirely and the
status is the success one; the empty file is a no-change case. -/
theorem c2_write_iff_changed (nm pth c : List Char) :
    ((procOne ⟨nm, pth, c, none, none⟩).wrote = true ↔ subAll c ≠ c) ∧
    (procOne ⟨nm, pth, c, none, none⟩).disk =
      (if subAll c = c then c else subAll c) ∧
    ((procOne ⟨nm, pth, c, none, none⟩).status = Status.noChange ↔
      subAll c = c) ∧
    ((procOne ⟨nm, pth, c, none, none⟩).status = Status.removed ↔
      subAll c ≠ c) ∧
    (procOne ⟨nm, pth, [], none, none⟩).wrote = false ∧
    (procOne ⟨nm, pth, [], none, none⟩).disk = [] ∧
    (procOne ⟨nm, pth, [], none, none⟩).status = Status.noChange := by
  refine ⟨?_, ?_, ?_, ?_, ?_, ?_, ?_⟩
  · by_cases h : subAll c = c <;> simp [procOne, h]
  · by_cases h : subAll c = c <;> simp [procOne, h]
  · by_cases h : subAll c = c <;> simp [procOne, h]
  · by_cases h : subAll c = c <;> simp [procOne, h]
  · simp [procOne, subAll_nil]
  · simp [procOne, subAll_nil]
  · simp [procOne, subAll_nil]

/-- C3 counterexample: the substitution is not idempotent.  On the text
`## [## [a](u1) (](u) (d)` the first pass yields `## ## [a (](u) (d)`,
which still contains a match, so a second pass changes the text again. -/
theorem c3_counterexample :
    subAll (subAll ("## [## [a](u1) (](u) (d)".toList)) ≠
      subAll ("## [## [a](u1) (](u) (d)".toList) := by decide

/-- C3 amended: the substitution is idempotent on every text whose
transformed output contains no further occurrence of the pattern (in
particular whenever the first pass changed nothing); in general a
replacement can combine with the surrounding text into a new occurrence,
so a second application may change the text further. -/
theorem c3_idempotent_when_no_new_match (t : List Char)
    (h : hasMatch (subAll t) = false) :
    subAll (subAll t) = subAll t :=
  subAll_noMatch h

/-- Witness for the amended C3 at the spec's concrete heading. -/
theorem c3_idempotent_when_no_new_match_witness :
    hasMatch (subAll ("## [1.2.0](https://a) (2024-01-15)\n".toList)) = false ∧
    subAll (subAll ("## [1.2.0](https://a) (2024-01-15)\n".toList)) =
      subAll ("## [1.2.0](https://a) (2024-01-15)\n".toList) :=
  ⟨by decide,
    c3_idempotent_when_no_new_match
      ("## [1.2.0](https://a) (2024-01-15)\n".toList) (by decide)⟩

/-- C4: failures are contained at single-file granularity: every file in
the traversal list yields exactly one result, independent of every other
file's environment; a file whose read fails — or whose write fails after
its content changed — is reported as errored with an error line containing
its path and the description, is not written, and the run still processes
all remaining files (the run is a total function over the whole list). -/
theorem c4_per_file_fault_isolation :
    (∀ (pre : List FileEnv) (f : FileEnv) (suf : List FileEnv),
      runAll (pre ++ f :: suf) = runAll pre ++ procOne f :: runAll suf) ∧
    (∀ files : List FileEnv, (runAll files).length = files.length) ∧
    (∀ (nm pth d m : List Char) (w : Option (List Char)),
      procOne ⟨nm, pth, d, some m, w⟩ = ⟨pth, false, Status.errored, d⟩) ∧
    (∀ (nm pth d m : List Char) (w : Option (List Char)),
      reportLine ⟨nm, pth, d, some m, w⟩ = errMsgA ++ pth ++ (errMsgB ++ m)) ∧
    (∀ nm pth d m : List Char, subAll d ≠ d →
      procOne ⟨nm, pth, d, none, some m⟩ = ⟨pth, false, Status.errored, d⟩) ∧
    (∀ nm pth d m : List Char, subAll d ≠ d →
      reportLine ⟨nm, pth, d, none, some m⟩ =
        errMsgA ++ pth ++ (errMsgB ++ m)) := by
  refine ⟨?_, ?_, ?_, ?_, ?_, ?_⟩
  · intro pre f suf; simp [runAll]
  · intro files; simp [runAll]
  · intro nm pth d m w; rfl
  · intro nm pth d m w; rfl
  · intro nm pth d m h; simp [procOne, h]
  · intro nm pth d m h; simp [reportLine, h]

/-- Witness for C4 at a concrete file whose content changes but whose
write attempt fails: the result is errored, unwritten, and the error line
carries the path and the description. -/
theorem c4_per_file_fault_isolation_witness :
    procOne ⟨"CHANGELOG.md".toList, "./CHANGELOG.md".toList,
        "## [1.2.0](https://a) (2024-01-15)\n".toList, none,
        some "Permission denied".toList⟩ =
      ⟨"./CHANGELOG.md".toList, false, Status.errored,
        "## [1.2.0](https://a) (2024-01-15)\n".toList⟩ ∧
    reportLine ⟨"CHANGELOG.md".toList, "./CHANGELOG.md".toList,
        "## [1.2.0](https://a) (2024-01-15)\n".toList, none,
        some "Permission denied".toList⟩ =
      errMsgA ++ "./CHANGELOG.md".toList ++
        (errMsgB ++ "Permission denied".toList) :=
  ⟨c4_per_file_fault_isolation.2.2.2.2.1 "CHANGELOG.md".toList
      "./CHANGELOG.md".toList "## [1.2.0](https://a) (2024-01-15)\n".toList
      "Permission denied".toList (by decide),
    c4_per_file_fault_isolation.2.2.2.2.2 "CHANGELOG.md".toList
      "./CHANGELOG.md".toList "## [1.2.0](https://a) (2024-01-15)\n".toList
      "Permission denied".toList (by decide)⟩

/-- C5: exactly the walked files whose name is literally `CHANGELOG.md`
are processed; the comparison is case-sensitive; the traversal root
passed to the walk is `'.'`, the current working directory. -/
theorem c5_exactly_changelogs_processed :
    (∀ (t : FTree) (f : FileEnv),
      f ∈ processedEnvs t ↔ f ∈ walkEnvs t ∧ f.name = changelogName) ∧
    (∀ (pth d : List Char) (r w : Option (List Char)),
      isChangelog ⟨"changelog.md".toList, pth, d, r, w⟩ = false) ∧
    walkRoot = ['.'] := by
  refine ⟨?_, ?_, rfl⟩
  · intro t f
    simp [processedEnvs, List.mem_filter, isChangelog]
  · intro pth d r w; rfl

/-- C6: content outside the matched occurrences passes through unchanged:
in a text made of a clean prefix, a linked heading, a clean middle (for
instance one holding an already-unlinked heading), a second linked heading
and a match-free tail, exactly the two linked headings are rewritten and
every other character is kept; the result differs from the original, so
the file is written. -/
theorem c6_only_matches_rewritten
    (pre l1 u1 p1 mid l2 u2 p2 post : List Char)
    (hpre : cleanBefore pre
      (linked l1 u1 p1 ++ (mid ++ (linked l2 u2 p2 ++ post))) = true)
    (hl1 : l1 ≠ []) (hl12 : ∀ c ∈ l1, c ≠ ']')
    (hu1 : u1 ≠ []) (hu12 : ∀ c ∈ u1, c ≠ ')')
    (hp1 : p1 ≠ []) (hp12 : ∀ c ∈ p1, c ≠ ')')
    (hmid : cleanBefore mid (linked l2 u2 p2 ++ post) = true)
    (hl2 : l2 ≠ []) (hl22 : ∀ c ∈ l2, c ≠ ']')
    (hu2 : u2 ≠ []) (hu22 : ∀ c ∈ u2, c ≠ ')')
    (hp2 : p2 ≠ []) (hp22 : ∀ c ∈ p2, c ≠ ')')
    (hpost : hasMatch post = false) :
    subAll (pre ++ (linked l1 u1 p1 ++ (mid ++ (linked l2 u2 p2 ++ post)))) =
      pre ++ (unlinked l1 p1 ++ (mid ++ (unlinked l2 p2 ++ post))) ∧
    subAll (pre ++ (linked l1 u1 p1 ++ (mid ++ (linked l2 u2 p2 ++ post)))) ≠
      pre ++ (linked l1 u1 p1 ++ (mid ++ (linked l2 u2 p2 ++ post))) ∧
    ∀ nm pth : List Char,
      (procOne ⟨nm, pth,
        pre ++ (linked l1 u1 p1 ++ (mid ++ (linked l2 u2 p2 ++ post))),
        none, none⟩).wrote = true := by
  have h1 : subAll
      (pre ++ (linked l1 u1 p1 ++ (mid ++ (linked l2 u2 p2 ++ post)))) =
      pre ++ (unlinked l1 p1 ++ (mid ++ (unlinked l2 p2 ++ post))) := by
    rw [cleanBefore_subAll hpre,
      subAll_linked l1 u1 p1 _ hl1 hl12 hu1 hu12 hp1 hp12,
      cleanBefore_subAll hmid,
      subAll_linked l2 u2 p2 post hl2 hl22 hu2 hu22 hp2 hp22,
      subAll_noMatch hpost]
  have hne : subAll
      (pre ++ (linked l1 u1 p1 ++ (mid ++ (linked l2 u2 p2 ++ post)))) ≠
      pre ++ (linked l1 u1 p1 ++ (mid ++ (linked l2 u2 p2 ++ post))) := by
    rw [h1]
    intro he
    have hlen := congrArg List.length he
    have h01 : 0 < u1.length := List.length_pos.mpr hu1
    simp [linked, unlinked, repl, pat1, pat2, pat3, pat4] at hlen
    omega
  refine ⟨h1, hne, ?_⟩
  intro nm pth
  simp [procOne, hne]

/-- Witness for C6 at the spec's concrete scenario: two linked headings
and one already-unlinked heading `## 1.0.0 (2023-12-01)`. -/
theorem c6_only_matches_rewritten_witness :
    subAll ("# Changelog\n\n## [1.2.0](https://a) (2024-01-15)\n\n## [1.1.0](https://b) (2024-01-02)\n\n## 1.0.0 (2023-12-01)\n".toList) =
      "# Changelog\n\n## 1.2.0 (2024-01-15)\n\n## 1.1.0 (2024-01-02)\n\n## 1.0.0 (2023-12-01)\n".toList ∧
    (procOne ⟨"CHANGELOG.md".toList, "./CHANGELOG.md".toList,
      "# Changelog\n\n## [1.2.0](https://a) (2024-01-15)\n\n## [1.1.0](https://b) (2024-01-02)\n\n## 1.0.0 (2023-12-01)\n".toList,
      none, none⟩).wrote = true := by
  have h := c6_only_matches_rewritten "# Changelog\n\n".toList
    "1.2.0".toList "https://a".toList "2024-01-15".toList
    "\n\n".toList
    "1.1.0".toList "https://b".toList "2024-01-02".toList
    "\n\n## 1.0.0 (2023-12-01)\n".toList
    (by decide) (by decide) (by decide) (by decide) (by decide) (by decide)
    (by decide) (by decide) (by decide) (by decide) (by decide) (by decide)
    (by decide) (by decide) (by decide)
  have e1 : "# Changelog\n\n## [1.2.0](https://a) (2024-01-15)\n\n## [1.1.0](https://b) (2024-01-02)\n\n## 1.0.0 (2023-12-01)\n".toList =
      "# Changelog\n\n".toList ++
        (linked "1.2.0".toList "https://a".toList "2024-01-15".toList ++
          ("\n\n".toList ++
            (linked "1.1.0".toList "https://b".toList "2024-01-02".toList ++
              "\n\n## 1.0.0 (2023-12-01)\n".toList))) := by decide
  constructor
  · exact (congrArg subAll e1).trans (h.1.trans (by decide))
  · rw [e1]
    exact h.2.2 "CHANGELOG.md".toList "./CHANGELOG.md".toList

/-- C7: a linked heading with no trailing parenthetical group is not
matched: after the `)` closing the URL the pattern requires a space and a
`(...)` group, so with a line break there instead no substitution occurs;
in particular the spec's concrete line is left unchanged. -/
theorem c7_no_trailing_parenthetical :
    (∀ l u rest : List Char, l ≠ [] → (∀ c ∈ l, c ≠ ']') →
      (∀ c ∈ u, c ≠ ')') →
      tryMatch (pat1 ++ (l ++ (']' :: '(' :: (u ++ ')' :: '\n' :: rest)))) =
        none) ∧
    subAll ("## [Unreleased](https://example.com/compare/v1.2.0...HEAD)\n".toList) =
      "## [Unreleased](https://example.com/compare/v1.2.0...HEAD)\n".toList := by
  constructor
  · intro l u rest hl hl2 hu2
    unfold tryMatch
    rw [stripPfx_same]
    simp only [Option.some_bind]
    rw [span1_exact _ hl hl2]
    simp only [Option.some_bind]
    rw [show (']' :: '(' :: (u ++ ')' :: '\n' :: rest))
        = pat2 ++ (u ++ ')' :: '\n' :: rest) from rfl]
    rw [stripPfx_same]
    simp only [Option.some_bind]
    rcases eq_or_ne u [] with rfl | hne
    · simp [span1, spanNe]
    · rw [span1_exact _ hne hu2]
      simp only [Option.some_bind]
      rw [show stripPfx pat3 (')' :: '\n' :: rest) = none from rfl]
      simp
  · decide

/-- Witness for C7 at the spec's concrete heading. -/
theorem c7_no_trailing_parenthetical_witness :
    tryMatch (pat1 ++ ("Unreleased".toList ++ (']' :: '(' ::
      ("https://example.com/compare/v1.2.0...HEAD".toList ++
        ')' :: '\n' :: [])))) = none :=
  c7_no_trailing_parenthetical.1 "Unreleased".toList
    "https://example.com/compare/v1.2.0...HEAD".toList []
    (by decide) (by decide) (by decide)

/-- C8: the transformation never lengthens the text, and shortens it
exactly when the pattern matches somewhere; hence a file (with no I/O
failure) is written back if and only if its content contains a match; one
whole match is longer than its replacement by the URL length plus the four
characters stripped around it. -/
theorem c8_shrinks_iff_match (t : List Char) :
    (subAll t).length ≤ t.length ∧
    ((subAll t).length < t.length ↔ hasMatch t = true) ∧
    (∀ nm pth : List Char,
      (procOne ⟨nm, pth, t, none, none⟩).wrote = true ↔
        hasMatch t = true) ∧
    (∀ l u p : List Char,
      (linked l u p).length = (repl l p).length + (u.length + 4)) := by
  refine ⟨subAll_length_le t, ?_, ?_, ?_⟩
  · constructor
    · intro hlt
      by_contra hb
      have he : subAll t = t := subAll_noMatch (by simpa using hb)
      rw [he] at hlt
      omega
    · exact subAll_length_lt
  · intro nm pth
    constructor
    · intro hw
      by_cases h : subAll t = t
      · simp [procOne, h] at hw
      · exact (subAll_ne_iff t).mp h
    · intro hm
      have h := (subAll_ne_iff t).mpr hm
      simp [procOne, h]
  · intro l u p
    simp [linked, repl, pat1, pat2, pat3, pat4]
    omega

/-- C9: a directory that cannot be listed is skipped silently: it emits no
status line at all, no file in its subtree is discovered or processed, the
walk continues with the remaining siblings, and every line the run emits
is the per-file line of some discovered `CHANGELOG.md` file. -/
theorem c9_unlistable_dir_skipped_silently :
    (∀ (n : List Char) (cs : FForest), runTree (FTree.dir n false cs) = []) ∧
    (∀ (n : List Char) (cs : FForest), walkEnvs (FTree.dir n false cs) = []) ∧
    (∀ (ts1 : FForest) (n : List Char) (cs ts2 : FForest),
      runForest (fapp ts1 (FForest.fcons (FTree.dir n false cs) ts2)) =
        runForest ts1 ++ runForest ts2) ∧
    (∀ t : FTree, runTree t = (processedEnvs t).map reportLine) := by
  refine ⟨?_, ?_, ?_, ?_⟩
  · intro n cs; rfl
  · intro n cs; rfl
  · intro ts1 n cs ts2
    rw [runForest_fapp]
    simp [runForest, runTree]
  · intro t
    simpa [processedEnvs] using runTree_eq t

/-- C10: per-file processing is deterministic in the file's content: with
the same content (and no I/O failure behaviour difference) the write
decision, the reported status kind and the resulting content coincide
whatever the path; the path only names the result. -/
theorem c10_outcome_depends_only_on_content
    (nm1 nm2 pth1 pth2 c : List Char) (re we : Option (List Char)) :
    (procOne ⟨nm1, pth1, c, re, we⟩).wrote =
      (procOne ⟨nm2, pth2, c, re, we⟩).wrote ∧
    (procOne ⟨nm1, pth1, c, re, we⟩).status =
      (procOne ⟨nm2, pth2, c, re, we⟩).status ∧
    (procOne ⟨nm1, pth1, c, re, we⟩).disk =
      (procOne ⟨nm2, pth2, c, re, we⟩).disk ∧
    (procOne ⟨nm1, pth1, c, re, we⟩).path = pth1 := by
  cases re <;> cases we <;> by_cases h : subAll c = c <;> simp [procOne, h]
